import Mathlib

/-!
Verification of the rust-softrender fragment-stage core: a shallow embedding
of the tile planner, stencil engine, framebuffer model, coordinate indexing,
depth conversion and color alpha handling, with theorems settling the
specification claims.
-/

set_option maxHeartbeats 1000000

/-- Modelled from the spec: `Dimensions (width, height)` in unsigned pixels
(the `geometry/dimensions` source file is not present under `src/`; the spec
defines it as a pair of unsigned pixel extents with `area = width·height`). -/
structure Dimensions where
  width : Nat
  height : Nat
deriving DecidableEq

/-- Modelled from the spec: `Area = width·height`. -/
def Dimensions.area (d : Dimensions) : Nat := d.width * d.height

/-- 2D coordinate, from `geometry/coordinate.rs` (`x`, `y` are `u32` values,
modelled as `Nat`). -/
structure Coordinate where
  x : Nat
  y : Nat
deriving DecidableEq

/-- `Coordinate::into_index`: convert a 2D coordinate into a 1D array index
using the given `Dimensions` (`self.x as usize + self.y as usize * dimensions.width as usize`). -/
def Coordinate.into_index (self : Coordinate) (dimensions : Dimensions) : Nat :=
  self.x + self.y * dimensions.width

/-- `Coordinate::from_index`: convert a 1D array index into a 2D coordinate
(`x = index % width; y = (index - x) / width`). -/
def Coordinate.from_index (index : Nat) (dimensions : Dimensions) : Coordinate :=
  let width := dimensions.width
  let x := index % width
  let y := (index - x) / width
  { x := x, y := y }

/-- `StencilTest` enumeration from `stencil.rs`. -/
inductive StencilTest
  | Always
  | Never
  | LessThan
  | GreaterThan
  | LessThanEq
  | GreaterThanEq
  | Equal
  | NotEqual
deriving DecidableEq

/-- `StencilTest::test`: performs the stencil test; the source is generic over
`T: Stencil` (which is `PartialOrd`); every stencil instance in the source is a
totally ordered primitive integer (or `()`), modelled here by `LinearOrder`. -/
def StencilTest.test {T : Type} [LinearOrder T] (self : StencilTest) (value mask : T) : Bool :=
  match self with
  | .Always => true
  | .Never => false
  | .LessThan => decide (mask < value)
  | .LessThanEq => decide (mask ≤ value)
  | .GreaterThan => decide (mask > value)
  | .GreaterThanEq => decide (mask ≥ value)
  | .Equal => decide (mask = value)
  | .NotEqual => decide (mask ≠ value)

/-- The `Stencil` trait of `stencil.rs`: zero, one, bitwise-not, wrapping and
saturating add/sub, plus the `Default` supertrait value. -/
class Stencil (T : Type) where
  zero : T
  one : T
  bnot : T → T
  wrapping_add : T → T → T
  wrapping_sub : T → T → T
  saturating_add : T → T → T
  saturating_sub : T → T → T
  default : T

/-- `StencilOp` enumeration from `stencil.rs`. -/
inductive StencilOp
  | Keep
  | Invert
  | Zero
  | Replace
  | Increment (wrap : Bool)
  | Decrement (wrap : Bool)
deriving DecidableEq

/-- `StencilOp::op`: performs the operation on the value, returning the new value. -/
def StencilOp.op {T : Type} [Stencil T] (self : StencilOp) (value mask : T) : T :=
  match self with
  | .Keep => value
  | .Invert => Stencil.bnot value
  | .Zero => Stencil.zero
  | .Replace => mask
  | .Increment true => Stencil.wrapping_add value Stencil.one
  | .Decrement true => Stencil.wrapping_sub value Stencil.one
  | .Increment false => Stencil.saturating_add value Stencil.one
  | .Decrement false => Stencil.saturating_sub value Stencil.one

/-- The `impl_stencil!(u8, ...)` instance at width 8: `u8` values are `Fin 256`;
wrapping add/sub are the modular `Fin` operations, saturating add clamps at 255,
saturating sub truncates at 0, and `!x = 255 - x`. -/
instance instStencilU8 : Stencil (Fin 256) where
  zero := 0
  one := 1
  bnot x := ⟨255 - x.val, by omega⟩
  wrapping_add x y := x + y
  wrapping_sub x y := x - y
  saturating_add x y := ⟨min (x.val + y.val) 255, by omega⟩
  saturating_sub x y := ⟨x.val - y.val, by omega⟩
  default := 0

/-- `i8` values: integers in `[-128, 127]`. -/
def I8 : Type := { z : Int // -128 ≤ z ∧ z ≤ 127 }

instance : DecidableEq I8 := fun a b =>
  decidable_of_iff (a.val = b.val) Subtype.ext_iff.symm

theorem I8.wrap_bounds (z : Int) :
    -128 ≤ (z + 128).emod 256 - 128 ∧ (z + 128).emod 256 - 128 ≤ 127 := by
  have h1 : 0 ≤ (z + 128).emod 256 := Int.emod_nonneg _ (by decide)
  have h2 : (z + 128).emod 256 < 256 := Int.emod_lt_of_pos _ (by decide)
  omega

/-- The `impl_stencil!` instance at signed width 8: two's-complement wrapping
(recentred `emod`), clamping saturation, and `!x = -1 - x`. -/
instance instStencilI8 : Stencil I8 where
  zero := ⟨0, by decide⟩
  one := ⟨1, by decide⟩
  bnot x := ⟨-1 - x.val, by obtain ⟨h1, h2⟩ := x.property; omega⟩
  wrapping_add x y := ⟨(x.val + y.val + 128).emod 256 - 128, I8.wrap_bounds _⟩
  wrapping_sub x y := ⟨(x.val - y.val + 128).emod 256 - 128, I8.wrap_bounds _⟩
  saturating_add x y := ⟨max (-128) (min 127 (x.val + y.val)), by omega⟩
  saturating_sub x y := ⟨max (-128) (min 127 (x.val - y.val)), by omega⟩
  default := ⟨0, by decide⟩

/-- The `impl Stencil for ()` no-op instance. -/
instance instStencilUnit : Stencil Unit where
  zero := ()
  one := ()
  bnot _ := ()
  wrapping_add _ _ := ()
  wrapping_sub _ _ := ()
  saturating_add _ _ := ()
  saturating_sub _ _ := ()
  default := ()

/-- `Rgba<T>` from the `image` crate as used in `image/color.rs`: `data: [T; 4]`,
with `data3` the alpha slot. -/
structure Rgba (T : Type) where
  data0 : T
  data1 : T
  data2 : T
  data3 : T
deriving DecidableEq

/-- `LumaA<T>`: `data: [T; 2]`, with `data1` the alpha slot. -/
structure LumaA (T : Type) where
  data0 : T
  data1 : T
deriving DecidableEq

/-- The `AlphaMultiply` trait (from the missing `color` module, referenced by
`image/color.rs`): a scalar alpha-multiplication operation. Modelled abstractly
since only its application point matters here. -/
class AlphaMultiply (T : Type) where
  mul_alpha : T → T → T

/-- `Color for Rgba<T>`: `mul_alpha` keeps `data[0..3]` and multiplies only the
alpha slot (`image/color.rs` lines 65-74). -/
def Rgba.mul_alpha {T : Type} [AlphaMultiply T] (self : Rgba T) (alpha : T) : Rgba T :=
  { data0 := self.data0
    data1 := self.data1
    data2 := self.data2
    data3 := AlphaMultiply.mul_alpha self.data3 alpha }

/-- `Color for Rgba<T>`: `with_alpha` replaces the alpha slot. -/
def Rgba.with_alpha {T : Type} (self : Rgba T) (alpha : T) : Rgba T :=
  { data0 := self.data0
    data1 := self.data1
    data2 := self.data2
    data3 := alpha }

/-- `Color for Rgba<T>`: `get_alpha`. -/
def Rgba.get_alpha {T : Type} (self : Rgba T) : T := self.data3

/-- `Color for LumaA<T>`: `mul_alpha` keeps `data[0]` and multiplies only the
alpha slot (`image/color.rs` lines 94-101). -/
def LumaA.mul_alpha {T : Type} [AlphaMultiply T] (self : LumaA T) (alpha : T) : LumaA T :=
  { data0 := self.data0
    data1 := AlphaMultiply.mul_alpha self.data1 alpha }

/-- `Color for LumaA<T>`: `get_alpha`. -/
def LumaA.get_alpha {T : Type} (self : LumaA T) : T := self.data1

/-- Claim C5: for every `Dimensions d` and linear index `i < d.area`,
`Coordinate::from_index(i, d).into_index(d) == i`; symmetrically, for every
coordinate with `x < width` and `y < height`, `from_index ∘ into_index` is the
identity; and `into_index` computes `x + y·width`. -/
theorem coordinate_index_bijection :
    (∀ (d : Dimensions) (i : Nat), i < d.area →
      (Coordinate.from_index i d).into_index d = i) ∧
    (∀ (d : Dimensions) (c : Coordinate), c.x < d.width → c.y < d.height →
      Coordinate.from_index (c.into_index d) d = c) ∧
    (∀ (d : Dimensions) (c : Coordinate), c.into_index d = c.x + c.y * d.width) := by
  refine ⟨?_, ?_, ?_⟩
  · intro d i hi
    have hw : 0 < d.width := by
      rcases Nat.eq_zero_or_pos d.width with h | h
      · exfalso
        have : d.area = 0 := by simp [Dimensions.area, h]
        omega
      · exact h
    have hsub : i - i % d.width = d.width * (i / d.width) := by
      have := Nat.div_add_mod i d.width
      omega
    simp only [Coordinate.from_index, Coordinate.into_index, hsub]
    rw [Nat.mul_div_cancel_left _ hw]
    exact Nat.mod_add_div' i d.width
  · intro d c hx hy
    have hw : 0 < d.width := by omega
    simp only [Coordinate.from_index, Coordinate.into_index]
    have hmod : (c.x + c.y * d.width) % d.width = c.x := by
      rw [Nat.add_mul_mod_self_right, Nat.mod_eq_of_lt hx]
    have hdiv : (c.x + c.y * d.width - c.x) / d.width = c.y := by
      rw [Nat.add_sub_cancel_left, Nat.mul_div_cancel _ hw]
    rw [hmod, hdiv]
  · intro d c
    rfl

/-- Witness for C5 at `Dimensions (4,5)`, index 7. -/
theorem coordinate_index_bijection_witness :
    (Coordinate.from_index 7 ⟨4, 5⟩).into_index ⟨4, 5⟩ = 7 ∧
    Coordinate.from_index (Coordinate.into_index ⟨3, 2⟩ ⟨4, 5⟩) ⟨4, 5⟩ = ⟨3, 2⟩ :=
  ⟨coordinate_index_bijection.1 ⟨4, 5⟩ 7 (by decide),
   coordinate_index_bijection.2.1 ⟨4, 5⟩ ⟨3, 2⟩ (by decide) (by decide)⟩

/-- Claim C2: `StencilTest::Always` is constant true and `Never` constant false
regardless of operands; the six comparison variants return exactly the
comparisons `<, ≤, >, ≥, =, ≠` applied to the `(mask, value)` pair, where
`test` takes `(incoming_value, stored_mask)`. -/
theorem stencil_test_semantics :
    ∀ (T : Type) [LinearOrder T] (value mask : T),
      StencilTest.Always.test value mask = true ∧
      StencilTest.Never.test value mask = false ∧
      (StencilTest.LessThan.test value mask = true ↔ mask < value) ∧
      (StencilTest.LessThanEq.test value mask = true ↔ mask ≤ value) ∧
      (StencilTest.GreaterThan.test value mask = true ↔ mask > value) ∧
      (StencilTest.GreaterThanEq.test value mask = true ↔ mask ≥ value) ∧
      (StencilTest.Equal.test value mask = true ↔ mask = value) ∧
      (StencilTest.NotEqual.test value mask = true ↔ mask ≠ value) := by
  intro T _ value mask
  refine ⟨rfl, rfl, ?_, ?_, ?_, ?_, ?_, ?_⟩ <;> simp [StencilTest.test]

/-- Claim C3: `StencilOp` semantics — `Keep` returns the stored value, `Invert`
its bitwise-not, `Zero` returns zero, `Replace` the incoming mask,
`Increment`/`Decrement` adjust by one (wrapping when `wrap=true`, saturating
when `wrap=false`, so that at the extreme values `Increment{true}` wraps
`MAX ↦ MIN`, `Increment{false}` stays at `MAX`, symmetrically for `Decrement`
at `MIN`, shown on the `u8` and `i8` instances), and on `()` every op returns
unit. -/
theorem stencil_op_semantics :
    (∀ (T : Type) [Stencil T] (x m : T),
      StencilOp.Keep.op x m = x ∧
      StencilOp.Invert.op x m = Stencil.bnot x ∧
      StencilOp.Zero.op x m = (Stencil.zero : T) ∧
      StencilOp.Replace.op x m = m ∧
      (StencilOp.Increment true).op x m = Stencil.wrapping_add x Stencil.one ∧
      (StencilOp.Decrement true).op x m = Stencil.wrapping_sub x Stencil.one ∧
      (StencilOp.Increment false).op x m = Stencil.saturating_add x Stencil.one ∧
      (StencilOp.Decrement false).op x m = Stencil.saturating_sub x Stencil.one) ∧
    (∀ m : Fin 256,
      (StencilOp.Increment true).op (255 : Fin 256) m = 0 ∧
      (StencilOp.Increment false).op (255 : Fin 256) m = 255 ∧
      (StencilOp.Decrement true).op (0 : Fin 256) m = 255 ∧
      (StencilOp.Decrement false).op (0 : Fin 256) m = 0) ∧
    (∀ m : I8,
      (StencilOp.Increment true).op ⟨127, by decide⟩ m = ⟨-128, by decide⟩ ∧
      (StencilOp.Increment false).op ⟨127, by decide⟩ m = ⟨127, by decide⟩ ∧
      (StencilOp.Decrement true).op ⟨-128, by decide⟩ m = ⟨127, by decide⟩ ∧
      (StencilOp.Decrement false).op ⟨-128, by decide⟩ m = ⟨-128, by decide⟩) ∧
    (∀ (o : StencilOp) (x m : Unit), o.op x m = ()) := by
  refine ⟨?_, ?_, ?_, ?_⟩
  · intro T _ x m
    exact ⟨rfl, rfl, rfl, rfl, rfl, rfl, rfl, rfl⟩
  · intro m
    simp only [StencilOp.op]
    refine ⟨?_, ?_, ?_, ?_⟩ <;> decide
  · intro m
    simp only [StencilOp.op]
    refine ⟨?_, ?_, ?_, ?_⟩ <;>
      · apply Subtype.ext
        decide
  · intro o x m
    rfl

/-- Claim C10: `mul_alpha` on `Rgba<T>` and `LumaA<T>` leaves every color
component other than the alpha channel unchanged and replaces only the alpha
channel with `AlphaMultiply::mul_alpha(old_alpha, a)`. -/
theorem mul_alpha_only_alpha :
    ∀ (T : Type) [AlphaMultiply T],
      (∀ (c : Rgba T) (a : T),
        (c.mul_alpha a).data0 = c.data0 ∧
        (c.mul_alpha a).data1 = c.data1 ∧
        (c.mul_alpha a).data2 = c.data2 ∧
        (c.mul_alpha a).data3 = AlphaMultiply.mul_alpha c.data3 a) ∧
      (∀ (c : LumaA T) (a : T),
        (c.mul_alpha a).data0 = c.data0 ∧
        (c.mul_alpha a).data1 = AlphaMultiply.mul_alpha c.data1 a) := by
  intro T _
  exact ⟨fun c a => ⟨rfl, rfl, rfl, rfl⟩, fun c a => ⟨rfl, rfl⟩⟩

/-- The `Color` trait as consumed by the texture-buffer macro and framebuffer
construction: only the `empty()` constant is needed here. -/
class Color (C : Type) where
  empty : C

/-- The `Depth` trait of `framebuffer/attachments/depth.rs`: the `far()`
constant. Every primitive instance defines `far() = Bounded::min_value()`. -/
class Depth (D : Type) where
  far : D

/-- The unit color attachment (spec: `()` trivially satisfies `Color`). -/
instance : Color Unit := ⟨()⟩

/-- `impl_depth_primitives!` at width `u8`: `far() = u8::MIN = 0`. -/
instance instDepthU8 : Depth (Fin 256) := ⟨0⟩

/-- `impl_depth_primitives!` at width `i8`: `far() = i8::MIN = -128`. -/
instance instDepthI8 : Depth I8 := ⟨⟨-128, by decide⟩⟩

/-- `impl Depth for ()`. -/
instance instDepthUnit : Depth Unit := ⟨()⟩

/-- In-place update of one list entry, modelling a write through
`get_unchecked_mut(index)`. -/
def listModifyAt {α : Type} (f : α → α) : Nat → List α → List α
  | _, [] => []
  | 0, a :: l => f a :: l
  | n + 1, a :: l => a :: listModifyAt f n l

theorem listModifyAt_length {α : Type} (f : α → α) (n : Nat) (l : List α) :
    (listModifyAt f n l).length = l.length := by
  induction l generalizing n with
  | nil => cases n <;> rfl
  | cons a l ih =>
    cases n with
    | zero => rfl
    | succ n => simpa [listModifyAt] using ih n

/-- The texture buffer generated by `declare_texture_buffer!`, instantiated
with two named color planes of element types `C₁`, `C₂` (matching the macro
shape: one `Vec` per named color plane, the dimensions, and one interleaved
`Vec<(Depth, Stencil)>`). -/
structure TextureBuffer (C₁ C₂ D S : Type) where
  plane0 : List C₁
  plane1 : List C₂
  dimensions : Dimensions
  buffer : List (D × S)

/-- `new()`: all buffers empty, dimensions `(0, 0)`. -/
def TextureBuffer.new {C₁ C₂ D S : Type} : TextureBuffer C₁ C₂ D S :=
  { plane0 := [], plane1 := [], dimensions := ⟨0, 0⟩, buffer := [] }

/-- `with_dimensions(dimensions)`: every plane pre-filled with `Color::empty()`
and the interleaved buffer with `(Depth::far(), Default::default())`, each of
length `dimensions.area()`. -/
def TextureBuffer.with_dimensions {C₁ C₂ D S : Type} [Color C₁] [Color C₂]
    [Depth D] [Stencil S] (dimensions : Dimensions) : TextureBuffer C₁ C₂ D S :=
  let pixels := dimensions.area
  { plane0 := List.replicate pixels Color.empty
    plane1 := List.replicate pixels Color.empty
    dimensions := dimensions
    buffer := List.replicate pixels (Depth.far, Stencil.default) }

/-- `Framebuffer::clear(color)` from `declare_texture_buffer!`: destructure the
color tuple, overwrite each plane with its component, and overwrite every
interleaved cell with `(Depth::far(), Default::default())`. -/
def TextureBuffer.clear {C₁ C₂ D S : Type} [Depth D] [Stencil S]
    (self : TextureBuffer C₁ C₂ D S) (color : C₁ × C₂) : TextureBuffer C₁ C₂ D S :=
  { self with
    plane0 := self.plane0.map fun _ => color.1
    plane1 := self.plane1.map fun _ => color.2
    buffer := self.buffer.map fun _ => (Depth.far, Stencil.default) }

/-- `set_pixel_unchecked(index, color)`: scatter the color tuple into each
plane at the same linear index. -/
def TextureBuffer.set_pixel_unchecked {C₁ C₂ D S : Type}
    (self : TextureBuffer C₁ C₂ D S) (index : Nat) (color : C₁ × C₂) :
    TextureBuffer C₁ C₂ D S :=
  { self with
    plane0 := self.plane0.set index color.1
    plane1 := self.plane1.set index color.2 }

/-- `set_depth_unchecked(index, depth)`: write the `.0` slot of the
interleaved cell. -/
def TextureBuffer.set_depth_unchecked {C₁ C₂ D S : Type}
    (self : TextureBuffer C₁ C₂ D S) (index : Nat) (depth : D) :
    TextureBuffer C₁ C₂ D S :=
  { self with buffer := listModifyAt (fun p => (depth, p.2)) index self.buffer }

/-- `set_stencil_unchecked(index, stencil)`: write the `.1` slot of the
interleaved cell. -/
def TextureBuffer.set_stencil_unchecked {C₁ C₂ D S : Type}
    (self : TextureBuffer C₁ C₂ D S) (index : Nat) (stencil : S) :
    TextureBuffer C₁ C₂ D S :=
  { self with buffer := listModifyAt (fun p => (p.1, stencil)) index self.buffer }

/-- States reachable through the texture buffer's public operations. -/
inductive TextureBuffer.Reachable {C₁ C₂ D S : Type} [Color C₁] [Color C₂]
    [Depth D] [Stencil S] : TextureBuffer C₁ C₂ D S → Prop
  | new : Reachable TextureBuffer.new
  | with_dimensions (d : Dimensions) : Reachable (TextureBuffer.with_dimensions d)
  | clear {b : TextureBuffer C₁ C₂ D S} (c : C₁ × C₂) :
      Reachable b → Reachable (b.clear c)
  | set_pixel {b : TextureBuffer C₁ C₂ D S} (i : Nat) (c : C₁ × C₂) :
      Reachable b → Reachable (b.set_pixel_unchecked i c)
  | set_depth {b : TextureBuffer C₁ C₂ D S} (i : Nat) (x : D) :
      Reachable b → Reachable (b.set_depth_unchecked i x)
  | set_stencil {b : TextureBuffer C₁ C₂ D S} (i : Nat) (s : S) :
      Reachable b → Reachable (b.set_stencil_unchecked i s)

/-- Claim C9: every texture buffer state reachable through `new()`,
`with_dimensions(d)`, `clear(c)` and the unchecked pixel/depth/stencil writes
has every named color plane of the same length as the interleaved
`(Depth, Stencil)` buffer, and that length equals `width·height` of the
buffer's dimensions. -/
theorem texture_buffer_length_invariant {C₁ C₂ D S : Type} [Color C₁] [Color C₂]
    [Depth D] [Stencil S] {b : TextureBuffer C₁ C₂ D S} (h : b.Reachable) :
    b.plane0.length = b.buffer.length ∧
    b.plane1.length = b.buffer.length ∧
    b.buffer.length = b.dimensions.width * b.dimensions.height := by
  induction h with
  | new => simp [TextureBuffer.new]
  | with_dimensions d => simp [TextureBuffer.with_dimensions, Dimensions.area]
  | clear c _ ih => simpa [TextureBuffer.clear] using ih
  | set_pixel i c _ ih => simpa [TextureBuffer.set_pixel_unchecked] using ih
  | set_depth i x _ ih =>
      simpa [TextureBuffer.set_depth_unchecked, listModifyAt_length] using ih
  | set_stencil i s _ ih =>
      simpa [TextureBuffer.set_stencil_unchecked, listModifyAt_length] using ih

/-- Witness for C9 on a concrete reachable state: construct at `(3, 2)`, clear,
then write pixel 2 and depth 4. -/
theorem texture_buffer_length_invariant_witness :
    ((((TextureBuffer.with_dimensions ⟨3, 2⟩ :
          TextureBuffer Unit Unit (Fin 256) (Fin 256)).clear
        ((), ())).set_pixel_unchecked 2 ((), ())).set_depth_unchecked 4
        9).Reachable ∧
    ((((TextureBuffer.with_dimensions ⟨3, 2⟩ :
          TextureBuffer Unit Unit (Fin 256) (Fin 256)).clear
        ((), ())).set_pixel_unchecked 2 ((), ())).set_depth_unchecked 4
        9).buffer.length = 6 := by
  have hr : ((((TextureBuffer.with_dimensions ⟨3, 2⟩ :
      TextureBuffer Unit Unit (Fin 256) (Fin 256)).clear
      ((), ())).set_pixel_unchecked 2 ((), ())).set_depth_unchecked 4
      9).Reachable :=
    TextureBuffer.Reachable.set_depth 4 9
      (TextureBuffer.Reachable.set_pixel 2 ((), ())
        (TextureBuffer.Reachable.clear ((), ())
          (TextureBuffer.Reachable.with_dimensions ⟨3, 2⟩)))
  refine ⟨hr, ?_⟩
  have := (texture_buffer_length_invariant hr).2.2
  simpa using this

/-- Claim C4: after `clear(c)`, every color cell of each named plane equals the
corresponding component of the color tuple, every depth cell equals
`Depth::far()` — which on the integer depth instances is the minimum
representable value — and every stencil cell equals the stencil default;
`clear` changes nothing else (dimensions and all lengths are preserved). -/
theorem clear_overwrites_everything :
    (∀ (C₁ C₂ D S : Type) [Depth D] [Stencil S]
       (b : TextureBuffer C₁ C₂ D S) (c : C₁ × C₂),
       (∀ x ∈ (b.clear c).plane0, x = c.1) ∧
       (∀ x ∈ (b.clear c).plane1, x = c.2) ∧
       (∀ p ∈ (b.clear c).buffer, p = ((Depth.far : D), (Stencil.default : S))) ∧
       (b.clear c).dimensions = b.dimensions ∧
       (b.clear c).plane0.length = b.plane0.length ∧
       (b.clear c).plane1.length = b.plane1.length ∧
       (b.clear c).buffer.length = b.buffer.length) ∧
    ((Depth.far : Fin 256) = 0 ∧ ∀ x : Fin 256, (Depth.far : Fin 256) ≤ x) ∧
    ((Depth.far : I8).val = -128 ∧ ∀ x : I8, (Depth.far : I8).val ≤ x.val) := by
  refine ⟨?_, ⟨rfl, fun x => Fin.zero_le x⟩, ⟨rfl, fun x => x.property.1⟩⟩
  intro C₁ C₂ D S _ _ b c
  refine ⟨?_, ?_, ?_, rfl, ?_, ?_, ?_⟩ <;>
    simp [TextureBuffer.clear]

/-- Witness for C4 on a concrete buffer: clearing `⟨[5, 6], [7, 7], (2, 1), [(3, 4), (5, 6)]⟩`
to `(9, 8)` makes every plane-0 cell 9 and every interleaved cell `(far, default)`. -/
theorem clear_overwrites_everything_witness :
    (9 : Fin 256) ∈ ((⟨[5, 6], [7, 7], ⟨2, 1⟩, [(3, 4), (5, 6)]⟩ :
        TextureBuffer (Fin 256) (Fin 256) (Fin 256) (Fin 256)).clear
        (9, 8)).plane0 ∧
    ((0, 0) : Fin 256 × Fin 256) ∈ ((⟨[5, 6], [7, 7], ⟨2, 1⟩, [(3, 4), (5, 6)]⟩ :
        TextureBuffer (Fin 256) (Fin 256) (Fin 256) (Fin 256)).clear
        (9, 8)).buffer ∧
    ((0, 0) : Fin 256 × Fin 256) =
      ((Depth.far : Fin 256), (Stencil.default : Fin 256)) := by
  refine ⟨by decide, by decide, ?_⟩
  exact (clear_overwrites_everything.1 (Fin 256) (Fin 256) (Fin 256) (Fin 256)
    ⟨[5, 6], [7, 7], ⟨2, 1⟩, [(3, 4), (5, 6)]⟩ (9, 8)).2.2.1 (0, 0) (by decide)

/-- Truncation toward zero: the rounding used by Rust `as` float→integer
casts (floor for non-negative values, ceiling for negative ones). -/
def truncQ (q : ℚ) : Int := if q < 0 then ⌈q⌉ else ⌊q⌋

theorem truncQ_range (lo hi : Int) (hlo : lo ≤ 0) (hhi : 0 ≤ hi) (n : ℚ) :
    ((lo : ℚ) - 1 < n ∧ n < (hi : ℚ) + 1) ↔ (lo ≤ truncQ n ∧ truncQ n ≤ hi) := by
  unfold truncQ
  split
  case isTrue hneg =>
    constructor
    · rintro ⟨h1, h2⟩
      constructor
      · have hcq : n ≤ (⌈n⌉ : ℚ) := Int.le_ceil n
        have : (lo : ℚ) - 1 < (⌈n⌉ : ℚ) := lt_of_lt_of_le h1 hcq
        have : lo - 1 < ⌈n⌉ := by exact_mod_cast this
        omega
      · have : ⌈n⌉ ≤ (0 : Int) := Int.ceil_le.mpr (by exact_mod_cast hneg.le)
        omega
    · rintro ⟨h1, h2⟩
      constructor
      · have hcq : (⌈n⌉ : ℚ) < n + 1 := Int.ceil_lt_add_one n
        have hl : ((lo : Int) : ℚ) ≤ (⌈n⌉ : ℚ) := by exact_mod_cast h1
        linarith
      · have : (0 : ℚ) ≤ (hi : ℚ) := by exact_mod_cast hhi
        linarith
  case isFalse hpos =>
    push_neg at hpos
    constructor
    · rintro ⟨h1, h2⟩
      constructor
      · have : (0 : Int) ≤ ⌊n⌋ := Int.le_floor.mpr (by exact_mod_cast hpos)
        omega
      · have hfq : (⌊n⌋ : ℚ) ≤ n := Int.floor_le n
        have : (⌊n⌋ : ℚ) < (hi : ℚ) + 1 := lt_of_le_of_lt hfq h2
        have : ⌊n⌋ < hi + 1 := by exact_mod_cast this
        omega
    · rintro ⟨h1, h2⟩
      constructor
      · have : (lo : ℚ) ≤ 0 := by exact_mod_cast hlo
        linarith
      · have hfq : n < (⌊n⌋ : ℚ) + 1 := Int.lt_floor_add_one n
        have hu : ((⌊n⌋ : Int) : ℚ) ≤ (hi : ℚ) := by exact_mod_cast h2
        linarith

/-- `Depth::from_scalar` for the `i8` instance:
`<i8 as NumCast>::from(n).expect("Invalid Cast")`. The `NumCast`
float→integer conversion (external `num_traits` crate) returns
`Some(n as i8)` exactly when `i8::MIN - 1 < n < i8::MAX + 1` and `None`
otherwise; the panic on `None` is modelled as `Option.none` and the floating
scalar as an exact rational. -/
def from_scalar_i8 (n : ℚ) : Option I8 :=
  if h : (-128 : ℚ) - 1 < n ∧ n < (127 : ℚ) + 1 then
    some ⟨truncQ n, (truncQ_range (-128) 127 (by decide) (by decide) n).mp
      (by exact_mod_cast h)⟩
  else none

/-- `Depth::from_scalar` for the `u8` instance, under the same modelling. -/
def from_scalar_u8 (n : ℚ) : Option (Fin 256) :=
  if h : (0 : ℚ) - 1 < n ∧ n < (255 : ℚ) + 1 then
    some ⟨(truncQ n).toNat, by
      have := (truncQ_range 0 255 (by decide) (by decide) n).mp (by exact_mod_cast h)
      omega⟩
  else none

/-- Claim C6: `Depth::from_scalar` fails exactly when the floating scalar
cannot be represented in the target depth type (its truncation toward zero
falls outside the representable range), and on representable input returns the
value of the underlying lossy (truncating) numeric cast; shown on the `i8`
and `u8` depth instances. -/
theorem from_scalar_fails_iff_unrepresentable :
    (∀ n : ℚ,
      (from_scalar_i8 n = none ↔ ¬(-128 ≤ truncQ n ∧ truncQ n ≤ 127)) ∧
      (∀ z : I8, from_scalar_i8 n = some z → z.val = truncQ n)) ∧
    (∀ n : ℚ,
      (from_scalar_u8 n = none ↔ ¬(0 ≤ truncQ n ∧ truncQ n ≤ 255)) ∧
      (∀ z : Fin 256, from_scalar_u8 n = some z → (z.val : Int) = truncQ n)) := by
  constructor
  · intro n
    constructor
    · unfold from_scalar_i8
      split
      case isTrue h =>
        have hr := (truncQ_range (-128) 127 (by decide) (by decide) n).mp
          (by exact_mod_cast h)
        simp [hr]
      case isFalse h =>
        have hnr : ¬(-128 ≤ truncQ n ∧ truncQ n ≤ 127) := by
          intro hr
          exact h (by exact_mod_cast
            (truncQ_range (-128) 127 (by decide) (by decide) n).mpr hr)
        simp [hnr]
    · intro z hz
      unfold from_scalar_i8 at hz
      split at hz
      case isTrue h =>
        cases hz
        rfl
      case isFalse h =>
        exact Option.noConfusion hz
  · intro n
    constructor
    · unfold from_scalar_u8
      split
      case isTrue h =>
        have hr := (truncQ_range 0 255 (by decide) (by decide) n).mp
          (by exact_mod_cast h)
        simp [hr]
      case isFalse h =>
        have hnr : ¬(0 ≤ truncQ n ∧ truncQ n ≤ 255) := by
          intro hr
          exact h (by exact_mod_cast
            (truncQ_range 0 255 (by decide) (by decide) n).mpr hr)
        simp [hnr]
    · intro z hz
      unfold from_scalar_u8 at hz
      split at hz
      case isTrue h =>
        cases hz
        have := (truncQ_range 0 255 (by decide) (by decide) n).mp
          (by exact_mod_cast h)
        simp
        omega
      case isFalse h =>
        exact Option.noConfusion hz

/-- Witness for C6: `from_scalar_i8` fails at 300 and truncates `5/2` to 2;
`from_scalar_u8` fails at `-2`. -/
theorem from_scalar_fails_witness :
    from_scalar_i8 300 = none ∧
    (⟨2, by decide⟩ : I8).val = truncQ (5 / 2 : ℚ) ∧
    from_scalar_u8 (-2) = none := by
  have hfloor : (⌊(5 / 2 : ℚ)⌋ : Int) = 2 := by
    rw [Int.floor_eq_iff]
    constructor <;> norm_num
  have htrunc : truncQ (5 / 2 : ℚ) = 2 := by
    unfold truncQ
    rw [if_neg (by norm_num)]
    exact hfloor
  have hsome : from_scalar_i8 (5 / 2 : ℚ) = some ⟨2, by decide⟩ := by
    unfold from_scalar_i8
    rw [dif_pos (by constructor <;> norm_num)]
    congr 1
    exact Subtype.ext htrunc
  refine ⟨?_, ?_, ?_⟩
  · exact (from_scalar_fails_iff_unrepresentable.1 300).1.mpr (by decide)
  · exact (from_scalar_fails_iff_unrepresentable.1 (5 / 2)).2
      ⟨2, by decide⟩ hsome
  · exact (from_scalar_fails_iff_unrepresentable.2 (-2)).1.mpr (by decide)


/-- `u32` wrapping decrement by one: the planner computes
`dimensions.width - 1` on `u32` values (release-mode wrapping semantics); for
`1 ≤ w < 2^32` this is the ordinary `w - 1`. -/
def u32sub1 (w : Nat) : Nat := (w + 4294967295) % 4294967296

/-- `u32` wrapping addition: the planner's `x + tile_size.width` and
`y + tile_size.height` (`fragment.rs` lines 199 and 202) are `u32` additions,
wrapping in release mode (panicking in debug, modelled as the wrapped
value). -/
def u32add (a b : Nat) : Nat := (a + b) % 4294967296

/-- The inner `while x < xmax` loop of the tile partition in
`FragmentShader::run` (`fragment.rs` lines 196-213), fuel-indexed: push
`(Coordinate(x, y), Coordinate(next_x, next_y))` with
`next_x = min(x + tile_size.width, xmax)` computed in `u32` arithmetic, and
advance `x = next_x`. A `none` result models exhausting the fuel, in
particular a loop that never terminates. -/
def tileRow (tw xmax y ny : Nat) : Nat → Nat → Option (List (Coordinate × Coordinate))
  | 0, _ => none
  | fuel + 1, x =>
    if x < xmax then
      (tileRow tw xmax y ny fuel (min (u32add x tw) xmax)).map
        (fun rest => (⟨x, y⟩, ⟨min (u32add x tw) xmax, ny⟩) :: rest)
    else
      some []

/-- The outer `while y < ymax` loop of the tile partition, with
`next_y = min(y + tile_size.height, ymax)` computed in `u32` arithmetic. -/
def tilesAux (tw th xmax ymax : Nat) : Nat → Nat → Option (List (Coordinate × Coordinate))
  | 0, _ => none
  | fuel + 1, y =>
    if y < ymax then
      match tileRow tw xmax y (min (u32add y th) ymax) (fuel + 1) 0 with
      | none => none
      | some row =>
          (tilesAux tw th xmax ymax fuel (min (u32add y th) ymax)).map
            (fun rest => row ++ rest)
    else
      some []

/-- The tile list computed at the start of `FragmentShader::run`, with
`xmax = dimensions.width - 1` and `ymax = dimensions.height - 1` (u32
subtraction) and both loops starting at 0. -/
def planTiles (dimensions tile_size : Dimensions) (fuel : Nat) :
    Option (List (Coordinate × Coordinate)) :=
  tilesAux tile_size.width tile_size.height
    (u32sub1 dimensions.width) (u32sub1 dimensions.height) fuel 0

/-- Modelled from the spec: the pixel set of a tile `(min, max)` is the
half-open box `[min, max)` — the rasterizers (whose source file is not under
`src/`) clamp writes to the worker's tile (§4.6) so that each pixel belongs to
exactly one tile (§4.8), matching the spec's covering of
`[0, W-1) × [0, H-1)`. -/
def tileContains (t : Coordinate × Coordinate) (px py : Nat) : Prop :=
  t.1.x ≤ px ∧ px < t.2.x ∧ t.1.y ≤ py ∧ py < t.2.y

instance (t : Coordinate × Coordinate) (px py : Nat) :
    Decidable (tileContains t px py) := by
  unfold tileContains
  infer_instance

/-- The tile-partition computation terminates with some tile list. -/
def tilePlannerTerminates (dimensions tile_size : Dimensions) : Prop :=
  ∃ fuel xs, planTiles dimensions tile_size fuel = some xs

/-- When the current position is below the bound and the bound plus the step
cannot overflow `u32`, the wrapping addition agrees with the plain one. -/
theorem u32add_eq_of_lt {x tw xmax : Nat} (hx : x < xmax)
    (hnw : xmax + tw ≤ 4294967296) : u32add x tw = x + tw := by
  unfold u32add
  exact Nat.mod_eq_of_lt (by omega)

theorem tileRow_stuck (tw xmax y ny x : Nat) (hx : x < xmax)
    (hmin : min (u32add x tw) xmax = x) :
    ∀ fuel, tileRow tw xmax y ny fuel x = none := by
  intro fuel
  induction fuel with
  | zero => rfl
  | succ fuel ih =>
    rw [tileRow, if_pos hx, hmin, ih]
    rfl

theorem tileRow_progress {tw xmax y ny fuel x : Nat}
    {xs : List (Coordinate × Coordinate)} (hnw : xmax + tw ≤ 4294967296)
    (hx : x < xmax) (h : tileRow tw xmax y ny fuel x = some xs) :
    x < min (x + tw) xmax := by
  have hadd : u32add x tw = x + tw := u32add_eq_of_lt hx hnw
  rcases Nat.lt_or_ge x (min (x + tw) xmax) with hlt | hge
  · exact hlt
  · exfalso
    have hmin : min (u32add x tw) xmax = x := by
      rw [hadd]
      exact le_antisymm hge (le_min (Nat.le_add_right _ _) (le_of_lt hx))
    rw [tileRow_stuck tw xmax y ny x hx hmin fuel] at h
    exact Option.noConfusion h

theorem tilesAux_stuck (tw th xmax ymax y : Nat) (hy : y < ymax)
    (hmin : min (u32add y th) ymax = y) :
    ∀ fuel, tilesAux tw th xmax ymax fuel y = none := by
  intro fuel
  induction fuel with
  | zero => rfl
  | succ fuel ih =>
    rw [tilesAux, if_pos hy, hmin]
    cases tileRow tw xmax y y (fuel + 1) 0 with
    | none => rfl
    | some row => rw [ih]; rfl

theorem tilesAux_progress {tw th xmax ymax fuel y : Nat}
    {xs : List (Coordinate × Coordinate)} (hnw : ymax + th ≤ 4294967296)
    (hy : y < ymax) (h : tilesAux tw th xmax ymax fuel y = some xs) :
    y < min (y + th) ymax := by
  have hadd : u32add y th = y + th := u32add_eq_of_lt hy hnw
  rcases Nat.lt_or_ge y (min (y + th) ymax) with hlt | hge
  · exact hlt
  · exfalso
    have hmin : min (u32add y th) ymax = y := by
      rw [hadd]
      exact le_antisymm hge (le_min (Nat.le_add_right _ _) (le_of_lt hy))
    rw [tilesAux_stuck tw th xmax ymax y hy hmin fuel] at h
    exact Option.noConfusion h

theorem tileRow_shape (tw xmax y ny : Nat) (hnw : xmax + tw ≤ 4294967296) :
    ∀ (fuel x : Nat) (xs : List (Coordinate × Coordinate)),
      tileRow tw xmax y ny fuel x = some xs →
      ∀ t ∈ xs, t.1.y = y ∧ t.2.y = ny ∧ x ≤ t.1.x ∧ t.1.x < t.2.x ∧
        t.2.x ≤ xmax ∧ t.2.x = min (t.1.x + tw) xmax := by
  intro fuel
  induction fuel with
  | zero =>
    intro x xs h
    exact absurd h (by rw [tileRow]; exact Option.noConfusion)
  | succ fuel ih =>
    intro x xs h t ht
    by_cases hx : x < xmax
    · have hprog : x < min (x + tw) xmax := tileRow_progress hnw hx h
      have hadd : u32add x tw = x + tw := u32add_eq_of_lt hx hnw
      rw [tileRow, if_pos hx, hadd] at h
      cases hrec : tileRow tw xmax y ny fuel (min (x + tw) xmax) with
      | none => rw [hrec] at h; exact Option.noConfusion h
      | some rest =>
        rw [hrec] at h
        injection h with h
        subst h
        rcases List.mem_cons.mp ht with ht | ht
        · subst ht
          exact ⟨rfl, rfl, le_refl x, hprog, min_le_right _ _, rfl⟩
        · obtain ⟨h1, h2, h3, h4, h5, h6⟩ := ih (min (x + tw) xmax) rest hrec t ht
          exact ⟨h1, h2, le_trans (le_of_lt hprog) h3, h4, h5, h6⟩
    · rw [tileRow, if_neg hx] at h
      injection h with h
      subst h
      exact absurd ht (List.not_mem_nil t)

theorem tileRow_cover (tw xmax y ny : Nat) (hnw : xmax + tw ≤ 4294967296) :
    ∀ (fuel x : Nat) (xs : List (Coordinate × Coordinate)),
      tileRow tw xmax y ny fuel x = some xs →
      ∀ px py, x ≤ px → px < xmax → y ≤ py → py < ny →
        ∃! t, t ∈ xs ∧ tileContains t px py := by
  intro fuel
  induction fuel with
  | zero =>
    intro x xs h
    exact absurd h (by rw [tileRow]; exact Option.noConfusion)
  | succ fuel ih =>
    intro x xs h px py hxpx hpx hypy hpy
    have hx : x < xmax := lt_of_le_of_lt hxpx hpx
    have hprog : x < min (x + tw) xmax := tileRow_progress hnw hx h
    have hadd : u32add x tw = x + tw := u32add_eq_of_lt hx hnw
    rw [tileRow, if_pos hx, hadd] at h
    cases hrec : tileRow tw xmax y ny fuel (min (x + tw) xmax) with
    | none => rw [hrec] at h; exact Option.noConfusion h
    | some rest =>
      rw [hrec] at h
      injection h with h
      subst h
      by_cases hpxnx : px < min (x + tw) xmax
      · refine ⟨(⟨x, y⟩, ⟨min (x + tw) xmax, ny⟩),
          ⟨List.mem_cons_self _ _, hxpx, hpxnx, hypy, hpy⟩, ?_⟩
        rintro t ⟨ht, hc⟩
        rcases List.mem_cons.mp ht with ht | ht
        · exact ht
        · exfalso
          have hshape := tileRow_shape tw xmax y ny hnw fuel _ rest hrec t ht
          have : min (x + tw) xmax ≤ px := le_trans hshape.2.2.1 hc.1
          omega
      · push_neg at hpxnx
        obtain ⟨t₀, ⟨ht₀, hc₀⟩, huniq⟩ :=
          ih (min (x + tw) xmax) rest hrec px py hpxnx hpx hypy hpy
        refine ⟨t₀, ⟨List.mem_cons_of_mem _ ht₀, hc₀⟩, ?_⟩
        rintro t ⟨ht, hc⟩
        rcases List.mem_cons.mp ht with ht | ht
        · exfalso
          subst ht
          have : px < min (x + tw) xmax := hc.2.1
          omega
        · exact huniq t ⟨ht, hc⟩

theorem tilesAux_shape (tw th xmax ymax : Nat) (hnwx : xmax + tw ≤ 4294967296)
    (hnwy : ymax + th ≤ 4294967296) :
    ∀ (fuel y : Nat) (xs : List (Coordinate × Coordinate)),
      tilesAux tw th xmax ymax fuel y = some xs →
      ∀ t ∈ xs, y ≤ t.1.y ∧ t.1.y < t.2.y ∧ t.2.y ≤ ymax ∧
        t.2.y = min (t.1.y + th) ymax ∧
        t.1.x < t.2.x ∧ t.2.x ≤ xmax ∧ t.2.x = min (t.1.x + tw) xmax := by
  intro fuel
  induction fuel with
  | zero =>
    intro y xs h
    exact absurd h (by rw [tilesAux]; exact Option.noConfusion)
  | succ fuel ih =>
    intro y xs h t ht
    by_cases hy : y < ymax
    · have hprog : y < min (y + th) ymax := tilesAux_progress hnwy hy h
      have hadd : u32add y th = y + th := u32add_eq_of_lt hy hnwy
      rw [tilesAux, if_pos hy, hadd] at h
      cases hrow : tileRow tw xmax y (min (y + th) ymax) (fuel + 1) 0 with
      | none => rw [hrow] at h; exact Option.noConfusion h
      | some row =>
        rw [hrow] at h
        cases hrec : tilesAux tw th xmax ymax fuel (min (y + th) ymax) with
        | none => rw [hrec] at h; exact Option.noConfusion h
        | some rest =>
          rw [hrec] at h
          injection h with h
          subst h
          rcases List.mem_append.mp ht with ht | ht
          · obtain ⟨h1, h2, _, h4, h5, h6⟩ :=
              tileRow_shape tw xmax y (min (y + th) ymax) hnwx (fuel + 1) 0 row hrow t ht
            rw [h1, h2]
            exact ⟨le_refl y, hprog, min_le_right _ _, rfl, h4, h5, h6⟩
          · obtain ⟨h1, h2, h3, h4, h5, h6, h7⟩ := ih (min (y + th) ymax) rest hrec t ht
            exact ⟨le_trans (le_of_lt hprog) h1, h2, h3, h4, h5, h6, h7⟩
    · rw [tilesAux, if_neg hy] at h
      injection h with h
      subst h
      exact absurd ht (List.not_mem_nil t)

theorem tilesAux_cover (tw th xmax ymax : Nat) (hnwx : xmax + tw ≤ 4294967296)
    (hnwy : ymax + th ≤ 4294967296) :
    ∀ (fuel y : Nat) (xs : List (Coordinate × Coordinate)),
      tilesAux tw th xmax ymax fuel y = some xs →
      ∀ px py, px < xmax → y ≤ py → py < ymax →
        ∃! t, t ∈ xs ∧ tileContains t px py := by
  intro fuel
  induction fuel with
  | zero =>
    intro y xs h
    exact absurd h (by rw [tilesAux]; exact Option.noConfusion)
  | succ fuel ih =>
    intro y xs h px py hpx hypy hpy
    have hy : y < ymax := lt_of_le_of_lt hypy hpy
    have hprog : y < min (y + th) ymax := tilesAux_progress hnwy hy h
    have hadd : u32add y th = y + th := u32add_eq_of_lt hy hnwy
    rw [tilesAux, if_pos hy, hadd] at h
    cases hrow : tileRow tw xmax y (min (y + th) ymax) (fuel + 1) 0 with
    | none => rw [hrow] at h; exact Option.noConfusion h
    | some row =>
      rw [hrow] at h
      cases hrec : tilesAux tw th xmax ymax fuel (min (y + th) ymax) with
      | none => rw [hrec] at h; exact Option.noConfusion h
      | some rest =>
        rw [hrec] at h
        injection h with h
        subst h
        by_cases hpyny : py < min (y + th) ymax
        · obtain ⟨t₀, ⟨ht₀, hc₀⟩, huniq⟩ :=
            tileRow_cover tw xmax y (min (y + th) ymax) hnwx (fuel + 1) 0 row hrow
              px py (Nat.zero_le px) hpx hypy hpyny
          refine ⟨t₀, ⟨List.mem_append_left _ ht₀, hc₀⟩, ?_⟩
          rintro t ⟨ht, hc⟩
          rcases List.mem_append.mp ht with ht | ht
          · exact huniq t ⟨ht, hc⟩
          · exfalso
            have hshape := tilesAux_shape tw th xmax ymax hnwx hnwy fuel _ rest hrec t ht
            have : min (y + th) ymax ≤ py := le_trans hshape.1 hc.2.2.1
            omega
        · push_neg at hpyny
          obtain ⟨t₀, ⟨ht₀, hc₀⟩, huniq⟩ :=
            ih (min (y + th) ymax) rest hrec px py hpx hpyny hpy
          refine ⟨t₀, ⟨List.mem_append_right _ ht₀, hc₀⟩, ?_⟩
          rintro t ⟨ht, hc⟩
          rcases List.mem_append.mp ht with ht | ht
          · exfalso
            have hshape :=
              tileRow_shape tw xmax y (min (y + th) ymax) hnwx (fuel + 1) 0 row hrow t ht
            have : py < min (y + th) ymax := by
              have := hshape.2.1
              have := hc.2.2.2
              omega
            omega
          · exact huniq t ⟨ht, hc⟩

theorem tileRow_terminates (tw xmax y ny : Nat) (htw : 0 < tw)
    (hnw : xmax + tw ≤ 4294967296) :
    ∀ fuel x, xmax - x < fuel →
      ∃ xs, tileRow tw xmax y ny fuel x = some xs := by
  intro fuel
  induction fuel with
  | zero => intro x h; omega
  | succ fuel ih =>
    intro x h
    by_cases hx : x < xmax
    · have hadd : u32add x tw = x + tw := u32add_eq_of_lt hx hnw
      have hnx : xmax - min (x + tw) xmax < fuel := by
        have h1 : x + 1 ≤ min (x + tw) xmax := le_min (by omega) hx
        omega
      obtain ⟨rest, hrest⟩ := ih (min (x + tw) xmax) hnx
      refine ⟨(⟨x, y⟩, ⟨min (x + tw) xmax, ny⟩) :: rest, ?_⟩
      rw [tileRow, if_pos hx, hadd, hrest]
      rfl
    · exact ⟨[], by rw [tileRow, if_neg hx]⟩

theorem tilesAux_terminates (tw th xmax ymax : Nat) (htw : 0 < tw)
    (hth : 0 < th) (hnwx : xmax + tw ≤ 4294967296)
    (hnwy : ymax + th ≤ 4294967296) :
    ∀ fuel y, ymax - y + xmax < fuel →
      ∃ xs, tilesAux tw th xmax ymax fuel y = some xs := by
  intro fuel
  induction fuel with
  | zero => intro y h; omega
  | succ fuel ih =>
    intro y h
    by_cases hy : y < ymax
    · have hadd : u32add y th = y + th := u32add_eq_of_lt hy hnwy
      have hrowfuel : xmax - 0 < fuel + 1 := by omega
      obtain ⟨row, hrow⟩ :=
        tileRow_terminates tw xmax y (min (y + th) ymax) htw hnwx (fuel + 1) 0 hrowfuel
      have hny : y + 1 ≤ min (y + th) ymax := le_min (by omega) hy
      have hrecfuel : ymax - min (y + th) ymax + xmax < fuel := by omega
      obtain ⟨rest, hrest⟩ := ih (min (y + th) ymax) hrecfuel
      refine ⟨row ++ rest, ?_⟩
      rw [tilesAux, if_pos hy, hadd, hrow, hrest]
      rfl
    · exact ⟨[], by rw [tilesAux, if_neg hy]⟩

theorem tilesAux_zero_tw_none (th xmax ymax y : Nat) (hy : y < ymax)
    (hx : 0 < xmax) :
    ∀ fuel, tilesAux 0 th xmax ymax fuel y = none := by
  intro fuel
  cases fuel with
  | zero => rfl
  | succ fuel =>
    rw [tilesAux, if_pos hy,
      tileRow_stuck 0 xmax y (min (u32add y th) ymax) 0 hx
        (by simp [u32add, Nat.lt_of_lt_of_le hx (le_refl xmax)]) (fuel + 1)]

theorem tileRow_wrap_cycle_none :
    ∀ fuel x, (x = 0 ∨ x = 3221225472 ∨ x = 2147483648 ∨ x = 1073741824) →
      tileRow 3221225472 4294967294 0 1 fuel x = none := by
  intro fuel
  induction fuel with
  | zero => intro x _; rfl
  | succ fuel ih =>
    intro x hx
    rcases hx with rfl | rfl | rfl | rfl
    · rw [tileRow, if_pos (by omega),
        show min (u32add 0 3221225472) 4294967294 = 3221225472 from by decide,
        ih 3221225472 (by omega)]
      rfl
    · rw [tileRow, if_pos (by omega),
        show min (u32add 3221225472 3221225472) 4294967294 = 2147483648 from by decide,
        ih 2147483648 (by omega)]
      rfl
    · rw [tileRow, if_pos (by omega),
        show min (u32add 2147483648 3221225472) 4294967294 = 1073741824 from by decide,
        ih 1073741824 (by omega)]
      rfl
    · rw [tileRow, if_pos (by omega),
        show min (u32add 1073741824 3221225472) 4294967294 = 0 from by decide,
        ih 0 (by omega)]
      rfl

theorem tilesAux_wrap_none :
    ∀ fuel, tilesAux 3221225472 1 4294967294 1 fuel 0 = none := by
  intro fuel
  cases fuel with
  | zero => rfl
  | succ fuel =>
    rw [tilesAux, if_pos (by omega),
      show min (u32add 0 1) 1 = 1 from by decide,
      tileRow_wrap_cycle_none (fuel + 1) 0 (by omega)]

/-- Claim C7 counterexample: the tile-partition loop of `run()` fails to
terminate at two concrete inputs — `Dimensions (3, 3)` with the degenerate
`tile_size (0, 128)` (`next_x = min(x + 0, xmax) = x` never advances), and
`Dimensions (4294967295, 2)` with the *positive* `tile_size (3221225472, 1)`,
where the u32 addition `x + tile_size.width` wraps and `x` cycles through
`0 → 3221225472 → 2147483648 → 1073741824 → 0` forever (debug builds panic on
the overflowing add) — so no tile list is ever produced. -/
theorem tile_planner_divergence :
    ¬ tilePlannerTerminates ⟨3, 3⟩ ⟨0, 128⟩ ∧
    ¬ tilePlannerTerminates ⟨4294967295, 2⟩ ⟨3221225472, 1⟩ := by
  constructor
  · rintro ⟨fuel, xs, h⟩
    unfold planTiles at h
    have h3 : u32sub1 3 = 2 := by decide
    rw [h3] at h
    rw [tilesAux_zero_tw_none 128 2 2 0 (by omega) (by omega) fuel] at h
    exact Option.noConfusion h
  · rintro ⟨fuel, xs, h⟩
    unfold planTiles at h
    rw [show u32sub1 4294967295 = 4294967294 from by decide,
      show u32sub1 2 = 1 from by decide, tilesAux_wrap_none fuel] at h
    exact Option.noConfusion h

/-- Claim C7 (amended): for every `Dimensions` and every `tile_size` of
positive width and height whose u32 additions cannot overflow
(`(W-1) + tw ≤ 2^32` and `(H-1) + th ≤ 2^32`), the tile-partition computation
performed at the start of `run()` terminates and yields a finite tile list. -/
theorem tile_planner_terminates_of_pos (d ts : Dimensions)
    (htw : 0 < ts.width) (hth : 0 < ts.height)
    (hnwx : u32sub1 d.width + ts.width ≤ 4294967296)
    (hnwy : u32sub1 d.height + ts.height ≤ 4294967296) :
    tilePlannerTerminates d ts := by
  obtain ⟨xs, hxs⟩ := tilesAux_terminates ts.width ts.height
    (u32sub1 d.width) (u32sub1 d.height) htw hth hnwx hnwy
    (u32sub1 d.height + u32sub1 d.width + 1) 0 (by omega)
  exact ⟨u32sub1 d.height + u32sub1 d.width + 1, xs, hxs⟩

/-- Witness for the amended C7 at `Dimensions (256, 256)`,
`tile_size (128, 128)` (no overflow possible: `255 + 128 ≤ 2^32`). -/
theorem tile_planner_terminates_witness :
    0 < (⟨128, 128⟩ : Dimensions).width ∧
    u32sub1 (⟨256, 256⟩ : Dimensions).width + (⟨128, 128⟩ : Dimensions).width ≤ 4294967296 ∧
    tilePlannerTerminates ⟨256, 256⟩ ⟨128, 128⟩ :=
  ⟨by decide, by decide,
   tile_planner_terminates_of_pos ⟨256, 256⟩ ⟨128, 128⟩ (by decide) (by decide)
     (by decide) (by decide)⟩

/-- Claim C1 counterexample: at `Dimensions (4294967295, 2)` with the
*positive* `tile_size (2863311530, 1)` the partition loop completes, but the
u32 addition `x + tile_size.width` wraps (`2 · 2863311530 mod 2^32 =
1431655764`), so the produced list re-covers pixels: pixel `(2000000000, 0)` —
inside the covered surface `[0, W-1) × [0, H-1)` — lies in two distinct
tiles, refuting the claimed disjointness / "exactly one tile". -/
theorem tile_partition_overlap :
    planTiles ⟨4294967295, 2⟩ ⟨2863311530, 1⟩ 5 =
      some [(⟨0, 0⟩, ⟨2863311530, 1⟩), (⟨2863311530, 0⟩, ⟨1431655764, 1⟩),
            (⟨1431655764, 0⟩, ⟨4294967294, 1⟩)] ∧
    (2000000000 + 1 < 4294967295 ∧ 0 + 1 < 2) ∧
    tileContains ((⟨0, 0⟩ : Coordinate), (⟨2863311530, 1⟩ : Coordinate))
      2000000000 0 ∧
    tileContains ((⟨1431655764, 0⟩ : Coordinate), (⟨4294967294, 1⟩ : Coordinate))
      2000000000 0 ∧
    ((⟨0, 0⟩ : Coordinate), (⟨2863311530, 1⟩ : Coordinate)) ≠
      ((⟨1431655764, 0⟩ : Coordinate), (⟨4294967294, 1⟩ : Coordinate)) ∧
    ¬ (∃! t, t ∈ [((⟨0, 0⟩ : Coordinate), (⟨2863311530, 1⟩ : Coordinate)),
          (⟨2863311530, 0⟩, ⟨1431655764, 1⟩), (⟨1431655764, 0⟩, ⟨4294967294, 1⟩)] ∧
        tileContains t 2000000000 0) := by
  refine ⟨by decide, by decide, by decide, by decide, by decide, ?_⟩
  rintro ⟨t, ⟨_, _⟩, huniq⟩
  have h1 := huniq ((⟨0, 0⟩ : Coordinate), (⟨2863311530, 1⟩ : Coordinate))
    ⟨by decide, by decide⟩
  have h2 := huniq ((⟨1431655764, 0⟩ : Coordinate), (⟨4294967294, 1⟩ : Coordinate))
    ⟨by decide, by decide⟩
  exact absurd (h1.trans h2.symm) (by decide)

theorem u32sub1_eq_sub_one (w : Nat) (h0 : 0 < w) (h32 : w < 4294967296) :
    u32sub1 w = w - 1 := by
  unfold u32sub1
  omega

/-- Claim C1 (amended): for u32 `Dimensions (W, H)` and `tile_size (tw, th)`
whose partition-loop additions cannot overflow
(`(W-1) + tw ≤ 2^32` and `(H-1) + th ≤ 2^32`), whenever the loop completes
with a tile list (as it does for every such positive `tile_size`), every
pixel `(x, y)` with `x < W-1` and `y < H-1` lies in exactly one tile (tiles
are pairwise disjoint and exhaustive over the covered surface), and each
tile's max corner equals `min(min_corner + tile_size, extent - 1)`. -/
theorem tile_partition_exactly_one (d ts : Dimensions)
    (hw : d.width < 4294967296) (hh : d.height < 4294967296)
    (hnwx : u32sub1 d.width + ts.width ≤ 4294967296)
    (hnwy : u32sub1 d.height + ts.height ≤ 4294967296)
    (fuel : Nat) (xs : List (Coordinate × Coordinate))
    (h : planTiles d ts fuel = some xs) :
    (∀ px py, px + 1 < d.width → py + 1 < d.height →
      ∃! t, t ∈ xs ∧ tileContains t px py) ∧
    (∀ t ∈ xs, t.2.x = min (t.1.x + ts.width) (u32sub1 d.width) ∧
               t.2.y = min (t.1.y + ts.height) (u32sub1 d.height)) := by
  unfold planTiles at h
  constructor
  · intro px py hpx hpy
    have hwx : u32sub1 d.width = d.width - 1 :=
      u32sub1_eq_sub_one d.width (by omega) hw
    have hhy : u32sub1 d.height = d.height - 1 :=
      u32sub1_eq_sub_one d.height (by omega) hh
    exact tilesAux_cover ts.width ts.height (u32sub1 d.width) (u32sub1 d.height)
      hnwx hnwy fuel 0 xs h px py (by omega) (Nat.zero_le py) (by omega)
  · intro t ht
    have hs := tilesAux_shape ts.width ts.height
      (u32sub1 d.width) (u32sub1 d.height) hnwx hnwy fuel 0 xs h t ht
    exact ⟨hs.2.2.2.2.2.2, hs.2.2.2.1⟩

/-- Witness for the amended C1: `Dimensions (5, 4)` with `tile_size (2, 2)`
(no overflow possible) yields four tiles, and pixel `(3, 2)` lies in exactly
one of them. -/
theorem tile_partition_exactly_one_witness :
    ∃! t, t ∈ [((⟨0, 0⟩ : Coordinate), (⟨2, 2⟩ : Coordinate)),
               (⟨2, 0⟩, ⟨4, 2⟩), (⟨0, 2⟩, ⟨2, 3⟩), (⟨2, 2⟩, ⟨4, 3⟩)] ∧
      tileContains t 3 2 :=
  (tile_partition_exactly_one ⟨5, 4⟩ ⟨2, 2⟩ (by decide) (by decide)
    (by decide) (by decide) 10
    [(⟨0, 0⟩, ⟨2, 2⟩), (⟨2, 0⟩, ⟨4, 2⟩), (⟨0, 2⟩, ⟨2, 3⟩), (⟨2, 2⟩, ⟨4, 3⟩)]
    (by decide)).1 3 2 (by decide) (by decide)

